import Mathlib

/-!
Verification development for the ceno-patch elliptic-curve point layer
(crypto-primitives and syscall crates).

The layer wraps incomplete accelerated curve primitives (syscall add / double)
into a total group interface.  We embed the point representation
(`WeierstrassPoint`, a tagged value: infinity or affine data), the raw syscall
adapter with its documented preconditions, the complete addition law, the
doubling entry points, negation / subtraction, the scalar-multiplication and
two-scalar ladders, cofactor handling, the encoding entry points, and the
byte / word / bit conversions.

The accelerated primitives themselves are external capabilities; per their
contract they overwrite the first operand with the group sum (resp. double) of
the encoded points, and are undefined outside their preconditions.  We
therefore abstract the limb encoding of an affine point to the curve-group
element it encodes: `G` is an additive commutative group, an affine limb array
is an element of `G`, and the accelerated calls are modelled by their contract
(`accel_add`, `accel_double`), with the syscall wrapper additionally recording
its documented precondition (operands distinct; and a result must be an affine
point, so inverse pairs have no representable result).  Fallible paths (limb
access on the infinity tag, precondition-violating syscalls) return `Option`.
-/

namespace Ceno

/-- The point representation (WeierstrassPoint in crypto-primitives): either the
identity (`infinity`, no coordinate data) or an affine point, abstracted to the
curve-group element its limb array encodes. -/
inductive WPoint (G : Type) where
  | infinity : WPoint G
  | affine : G → WPoint G
  deriving DecidableEq

/-- The projective wrapper (CenoProjectivePoint in ecdsa/projective.rs): holds
exactly one inner affine-representation point. -/
structure CenoProjectivePoint (A : Type) where
  inner : A
  deriving DecidableEq

/-- Accelerated add, modelled by its contract: overwrites the first operand with
the sum of the two encoded curve points. -/
def accel_add {G : Type} [Add G] (p q : G) : G := p + q

/-- Accelerated double, modelled by its contract: overwrites the operand with
twice the encoded curve point. -/
def accel_double {G : Type} [Add G] (p : G) : G := p + p

/-- syscall_secp256k1_add (src/syscall/src/lib.rs): documented precondition is
that the two operands are distinct valid curve points; moreover the result is
written back as an affine limb array, so operands whose sum is the identity
have no representable result.  Outside the preconditions the call is undefined,
modelled as `none`. -/
def syscall_point_add {G : Type} [AddCommGroup G] [DecidableEq G] (p q : G) :
    Option G :=
  if p = q ∨ p = -q then none else some (accel_add p q)

/-- Modelled from the spec: limb access (limbs_ref / limbs_mut of the
AffinePoint trait live in utils.rs, which is not under src).  Spec 4.1:
`coordinates(p)` fails if `p` is Infinity, otherwise returns the coordinate
data. -/
def limbs {G : Type} : WPoint G → Option G
  | .infinity => none
  | .affine g => some g

/-- AffinePoint::add_assign for CenoSecp256k1Point
(src/crypto-primitives/src/secp256k1.rs): takes both operands' limbs (failing
on an infinity tag) and invokes the accelerated add syscall. -/
def point_raw_add {G : Type} [AddCommGroup G] [DecidableEq G]
    (p q : WPoint G) : Option (WPoint G) := do
  let a ← limbs p
  let b ← limbs q
  let r ← syscall_point_add a b
  pure (WPoint.affine r)

/-- CenoSecp256k1Point::double (src/crypto-primitives/src/secp256k1.rs):
infinity is left unchanged, otherwise the accelerated double is invoked on the
limbs.  This is also the spec 4.3 standalone doubling used by the ladders. -/
def secp256k1_double {G : Type} [Add G] : WPoint G → WPoint G
  | .infinity => .infinity
  | .affine g => .affine (accel_double g)

/-- Bn254Point::double (src/crypto-primitives/src/bn254.rs): unconditionally
takes limbs_mut (which fails on an infinity tag) and invokes the accelerated
double. -/
def bn254_double {G : Type} [Add G] (p : WPoint G) : Option (WPoint G) := do
  let a ← limbs p
  pure (WPoint.affine (accel_double a))

/-- Modelled from the spec: the complete addition law
(weierstrass_add_assign, whose body lives in utils.rs, not under src; called by
complete_add_assign in src/crypto-primitives/src/secp256k1.rs and bn254.rs).
Spec 4.3 case order: other is identity, then self is identity, then equal
points (double), then mutually inverse points (identity), then the accelerated
add, whose preconditions the guards establish. -/
def complete_add {G : Type} [AddCommGroup G] [DecidableEq G] :
    WPoint G → WPoint G → WPoint G
  | p, .infinity => p
  | .infinity, q => q
  | .affine a, .affine b =>
    if a = b then .affine (accel_double a)
    else if a = -b then .infinity
    else .affine (accel_add a b)

/-- Neg for CenoProjectivePoint (src/crypto-primitives/src/ecdsa/projective.rs):
identity is returned unchanged; otherwise the Y coordinate is negated, which on
the encoded curve point is group negation. -/
def proj_neg {G : Type} [Neg G] (p : CenoProjectivePoint (WPoint G)) :
    CenoProjectivePoint (WPoint G) :=
  match p.inner with
  | .infinity => p
  | .affine g => ⟨.affine (-g)⟩

/-- Add for CenoProjectivePoint (src/crypto-primitives/src/ecdsa/projective.rs):
delegates to AffinePoint::add_assign on the inner zkvm points, i.e. to the raw
syscall adapter. -/
def proj_add {G : Type} [AddCommGroup G] [DecidableEq G]
    (p q : CenoProjectivePoint (WPoint G)) :
    Option (CenoProjectivePoint (WPoint G)) :=
  (point_raw_add p.inner q.inner).map fun w => ⟨w⟩

/-- AddAssign for CenoProjectivePoint
(src/crypto-primitives/src/ecdsa/projective.rs): same body as the Add
implementation, mutating in place. -/
def proj_add_assign {G : Type} [AddCommGroup G] [DecidableEq G]
    (p q : CenoProjectivePoint (WPoint G)) :
    Option (CenoProjectivePoint (WPoint G)) :=
  (point_raw_add p.inner q.inner).map fun w => ⟨w⟩

/-- Sub for CenoProjectivePoint (src/crypto-primitives/src/ecdsa/projective.rs):
`self + rhs.neg()`. -/
def proj_sub {G : Type} [AddCommGroup G] [DecidableEq G]
    (p q : CenoProjectivePoint (WPoint G)) :
    Option (CenoProjectivePoint (WPoint G)) :=
  proj_add p (proj_neg q)

/-- SubAssign for CenoProjectivePoint
(src/crypto-primitives/src/ecdsa/projective.rs): add_assign of the negated
right operand. -/
def proj_sub_assign {G : Type} [AddCommGroup G] [DecidableEq G]
    (p q : CenoProjectivePoint (WPoint G)) :
    Option (CenoProjectivePoint (WPoint G)) :=
  proj_add_assign p (proj_neg q)

/-- Mixed Add of a projective and an affine point
(src/crypto-primitives/src/ecdsa/projective.rs): wraps the affine operand and
delegates to the projective Add. -/
def proj_add_affine {G : Type} [AddCommGroup G] [DecidableEq G]
    (p : CenoProjectivePoint (WPoint G)) (q : WPoint G) :
    Option (CenoProjectivePoint (WPoint G)) :=
  proj_add p ⟨q⟩

/-- Mixed AddAssign of an affine point
(src/crypto-primitives/src/ecdsa/projective.rs): add_assign directly on the
inner zkvm point and the affine operand. -/
def proj_add_assign_affine {G : Type} [AddCommGroup G] [DecidableEq G]
    (p : CenoProjectivePoint (WPoint G)) (q : WPoint G) :
    Option (CenoProjectivePoint (WPoint G)) :=
  (point_raw_add p.inner q).map fun w => ⟨w⟩

/-- Group::double for CenoProjectivePoint
(src/crypto-primitives/src/ecdsa/projective.rs): copies the inner zkvm point
and calls its double; for the supported curve in src that is
CenoSecp256k1Point::double. -/
def proj_double {G : Type} [Add G] (p : CenoProjectivePoint (WPoint G)) :
    CenoProjectivePoint (WPoint G) :=
  ⟨secp256k1_double p.inner⟩

/-- Modelled from the spec: the double-and-add scalar multiplication ladder
(mul_assign of the AffinePoint trait lives in utils.rs, not under src).
Spec 4.5: the scalar is walked in little-endian bit order; set bits add the
current doubled point into the accumulator through the complete law; the
accumulator starts at the identity so a zero scalar and an identity input both
yield the identity without invoking the narrow primitive. -/
def scalar_mul_bits {G : Type} [AddCommGroup G] [DecidableEq G] :
    List Bool → WPoint G → WPoint G → WPoint G
  | [], _, acc => acc
  | bit :: rest, temp, acc =>
    scalar_mul_bits rest (secp256k1_double temp)
      (if bit then complete_add acc temp else acc)

/-- Modelled from the spec: the interleaved two-scalar double-and-add routine
(multi_scalar_multiplication of the AffinePoint trait lives in utils.rs, not
under src).  Spec 4.5: both little-endian bit sequences are walked in step,
each set bit adding the corresponding doubled point into the accumulator
through the complete law. -/
def msm_bits {G : Type} [AddCommGroup G] [DecidableEq G] :
    List (Bool × Bool) → WPoint G → WPoint G → WPoint G → WPoint G
  | [], _, _, acc => acc
  | (ba, bb) :: rest, a, b, acc =>
    let acc1 := if ba then complete_add acc a else acc
    let acc2 := if bb then complete_add acc1 b else acc1
    msm_bits rest (secp256k1_double a) (secp256k1_double b) acc2

/-- LinearCombination::lincomb for CenoProjectivePoint
(src/crypto-primitives/src/ecdsa/projective.rs): converts both scalars to
little-endian bit sequences and runs the two-scalar routine on the inner zkvm
points. -/
def lincomb {G : Type} [AddCommGroup G] [DecidableEq G]
    (p : CenoProjectivePoint (WPoint G)) (abits : List Bool)
    (q : CenoProjectivePoint (WPoint G)) (bbits : List Bool) :
    CenoProjectivePoint (WPoint G) :=
  ⟨msm_bits (abits.zip bbits) p.inner q.inner .infinity⟩

/-- Mul for CenoProjectivePoint (src/crypto-primitives/src/ecdsa/projective.rs):
mul_assign on the inner zkvm point with the little-endian form of the scalar,
given here by its little-endian bit sequence (the theorem for the byte
conversions relates the word form and the bit form). -/
def proj_scalar_mul {G : Type} [AddCommGroup G] [DecidableEq G]
    (p : CenoProjectivePoint (WPoint G)) (kbits : List Bool) :
    CenoProjectivePoint (WPoint G) :=
  ⟨scalar_mul_bits kbits p.inner .infinity⟩

/-- CofactorGroup::clear_cofactor for CenoProjectivePoint
(src/crypto-primitives/src/ecdsa/projective.rs): returns `*self`. -/
def clear_cofactor {A : Type} (p : CenoProjectivePoint A) :
    CenoProjectivePoint A := p

/-- CofactorGroup::is_torsion_free for CenoProjectivePoint
(src/crypto-primitives/src/ecdsa/projective.rs): `Choice::from(1)`. -/
def is_torsion_free {A : Type} (_p : CenoProjectivePoint A) : Bool := true

/-- CofactorGroup::into_subgroup for CenoProjectivePoint
(src/crypto-primitives/src/ecdsa/projective.rs): `CtOption::new(self, 1)`. -/
def into_subgroup {A : Type} (p : CenoProjectivePoint A) :
    Option (CenoProjectivePoint A) := some p

/-- GroupEncoding::from_bytes for CenoProjectivePoint
(src/crypto-primitives/src/ecdsa/projective.rs): maps the affine-level decode
result (a CtOption) into the projective wrapper; an empty affine result stays
empty.  The affine decoder is a parameter. -/
def proj_from_bytes {R A : Type} (d : R → Option A) (r : R) :
    Option (CenoProjectivePoint A) :=
  (d r).map fun a => ⟨a⟩

/-- GroupEncoding::from_bytes_unchecked for CenoProjectivePoint
(src/crypto-primitives/src/ecdsa/projective.rs): "No unchecked conversion
possible for compressed points." — delegates to from_bytes. -/
def proj_from_bytes_unchecked {R A : Type} (d : R → Option A) (r : R) :
    Option (CenoProjectivePoint A) :=
  proj_from_bytes d r

/-- A coordinate-level point, for the decoding claims: infinity or an (x, y)
pair of field elements. -/
inductive CoordPoint (F : Type) where
  | infinity : CoordPoint F
  | affine : F → F → CoordPoint F
  deriving DecidableEq

/-- Modelled from the spec: compressed-point decoding at the affine level
(affine.rs of the ecdsa module is not under src).  Spec 6 / 7: the encoding is
the X coordinate plus a parity bit; Y is recovered as a square root of
x^3 + a*x + b through the external field layer's square-root operation
(`sqrtFn`), the root being chosen so its parity (`oddFn`) matches the encoded
bit; when the expression has no square root the result is empty, never a
fatal abort. -/
def affine_decompress {F : Type} [Field F] [DecidableEq F]
    (sqrtFn : F → Option F) (oddFn : F → Bool) (A B : F)
    (x : F) (parity : Bool) : Option (CoordPoint F) :=
  match sqrtFn (x * x * x + A * x + B) with
  | none => none
  | some y => some (CoordPoint.affine x (if oddFn y == parity then y else -y))

/-- u32::from_le_bytes on one 4-byte chunk: least significant byte first. -/
def u32_from_le_bytes (b0 b1 b2 b3 : ℕ) : ℕ :=
  b0 + b1 * 2 ^ 8 + b2 * 2 ^ 16 + b3 * 2 ^ 24

/-- be_bytes_to_le_words (src/crypto-primitives/src/ecdsa/projective.rs): the
32-byte big-endian buffer (given as its indexing function; indices 0 to 31
carry the bytes) is reversed, then read as eight consecutive 4-byte
little-endian words; word `i` therefore reads original bytes
31-4i, 31-(4i+1), 31-(4i+2), 31-(4i+3), least significant first. -/
def be_bytes_to_le_words (b : ℕ → ℕ) (i : ℕ) : ℕ :=
  u32_from_le_bytes (b (31 - 4 * i)) (b (31 - (4 * i + 1)))
    (b (31 - (4 * i + 2))) (b (31 - (4 * i + 3)))

/-- be_bytes_to_le_bits (src/crypto-primitives/src/ecdsa/projective.rs): the
bytes are walked in reverse order; entry 8*i + j is bit j of reversed byte i,
i.e. `((byte >> j) & 1) == 1` for original byte 31-i.  Entry `k` therefore
reads bit k % 8 of original byte 31 - k / 8. -/
def be_bytes_to_le_bits (b : ℕ → ℕ) (k : ℕ) : Bool :=
  (b (31 - k / 8) >>> (k % 8)) &&& 1 == 1

/-- CenoSecp256k1Point::GENERATOR limb array
(src/crypto-primitives/src/secp256k1.rs), verbatim. -/
def secp256k1_generator_limbs : List ℕ :=
  [385357720, 1509065051, 768485593, 43777243, 3464956679, 1436574357,
   4191992748, 2042521214, 4212184248, 2621952143, 2793755673, 4246189128,
   235997352, 1571093500, 648266853, 1211816567]

/-- The integer a little-endian 32-bit word list encodes (least significant
word first). -/
def le_words_to_nat : List ℕ → ℕ
  | [] => 0
  | w :: ws => w + 2 ^ 32 * le_words_to_nat ws

/-- A concrete square-root oracle on the field with three elements, used to
instantiate the decoding theorem: 0 and 1 are the only squares mod 3. -/
def zmod3_sqrt (r : ZMod 3) : Option (ZMod 3) :=
  if r = 0 then some 0 else if r = 1 then some 1 else none

/-- The curve-group element a represented point encodes: infinity encodes the
group identity. -/
def toG {G : Type} [Zero G] : WPoint G → G
  | .infinity => 0
  | .affine g => g

/-- Representation wellformedness: an affine tag never encodes the group
identity (affine curve points are never the point at infinity). -/
def wfP {G : Type} [Zero G] : WPoint G → Prop
  | .infinity => True
  | .affine g => g ≠ 0

/-- The value of a little-endian bit sequence, least significant bit first. -/
def bitsVal : List Bool → ℕ
  | [] => 0
  | b :: r => (if b then 1 else 0) + 2 * bitsVal r

/-- The complete addition law computes the group sum of the encoded points, in
every case of its dispatch. -/
theorem toG_complete_add {G : Type} [AddCommGroup G] [DecidableEq G]
    (p q : WPoint G) : toG (complete_add p q) = toG p + toG q := by
  cases p with
  | infinity =>
    cases q with
    | infinity => simp [complete_add, toG]
    | affine b => simp [complete_add, toG]
  | affine a =>
    cases q with
    | infinity => simp [complete_add, toG]
    | affine b =>
      by_cases hab : a = b
      · subst hab
        simp [complete_add, toG, accel_double]
      · by_cases hinv : a = -b
        · simp only [complete_add]
          rw [if_neg hab, if_pos hinv, hinv]
          simp [toG]
        · simp only [complete_add]
          rw [if_neg hab, if_neg hinv]
          simp [toG, accel_add]

/-- Standalone doubling computes twice the encoded point. -/
theorem toG_secp256k1_double {G : Type} [AddCommGroup G] (p : WPoint G) :
    toG (secp256k1_double p) = toG p + toG p := by
  cases p <;> simp [secp256k1_double, toG, accel_double]

/-- On a group with no 2-torsion (prime order greater than two), the complete
addition law preserves representation wellformedness. -/
theorem wfP_complete_add {G : Type} [AddCommGroup G] [DecidableEq G]
    (hnt : ∀ g : G, g + g = 0 → g = 0) {p q : WPoint G}
    (hp : wfP p) (hq : wfP q) : wfP (complete_add p q) := by
  cases p with
  | infinity =>
    cases q with
    | infinity => exact trivial
    | affine b => exact hq
  | affine a =>
    cases q with
    | infinity => exact hp
    | affine b =>
      by_cases hab : a = b
      · subst hab
        simp only [complete_add, if_pos rfl, accel_double, wfP]
        intro h
        exact hp (hnt a h)
      · by_cases hinv : a = -b
        · simp only [complete_add, if_neg hab, if_pos hinv]
          exact trivial
        · simp only [complete_add, if_neg hab, if_neg hinv]
          intro h
          exact hinv (eq_neg_of_add_eq_zero_left h)

/-- On a group with no 2-torsion, standalone doubling preserves
representation wellformedness. -/
theorem wfP_secp256k1_double {G : Type} [AddCommGroup G] [DecidableEq G]
    (hnt : ∀ g : G, g + g = 0 → g = 0) {p : WPoint G} (hp : wfP p) :
    wfP (secp256k1_double p) := by
  cases p with
  | infinity => exact trivial
  | affine g =>
    simp only [secp256k1_double, accel_double, wfP]
    intro h
    exact hp (hnt g h)

/-- On wellformed representations the encoded group element determines the
representation: an affine tag never encodes zero. -/
theorem wfP_toG_inj {G : Type} [AddCommGroup G] {p q : WPoint G}
    (hp : wfP p) (hq : wfP q) (h : toG p = toG q) : p = q := by
  cases p with
  | infinity =>
    cases q with
    | infinity => rfl
    | affine b => exact absurd h.symm hq
  | affine a =>
    cases q with
    | infinity => exact absurd h hp
    | affine b => exact congrArg WPoint.affine h

/-- Value of the scalar-multiplication ladder: accumulator plus the bit value
times the walked point. -/
theorem toG_scalar_mul_bits {G : Type} [AddCommGroup G] [DecidableEq G]
    (bits : List Bool) (temp acc : WPoint G) :
    toG (scalar_mul_bits bits temp acc)
      = toG acc + bitsVal bits • toG temp := by
  induction bits generalizing temp acc with
  | nil => simp [scalar_mul_bits, bitsVal]
  | cons b rest ih =>
    simp only [scalar_mul_bits]
    rw [ih]
    cases b <;>
      simp [bitsVal, toG_complete_add, toG_secp256k1_double, smul_add,
        add_smul, mul_smul, two_smul]
    abel

/-- Value of the interleaved two-scalar ladder: accumulator plus each bit
value times its point. -/
theorem toG_msm_bits {G : Type} [AddCommGroup G] [DecidableEq G]
    (ab : List (Bool × Bool)) (a b acc : WPoint G) :
    toG (msm_bits ab a b acc)
      = toG acc + bitsVal (ab.map Prod.fst) • toG a
          + bitsVal (ab.map Prod.snd) • toG b := by
  induction ab generalizing a b acc with
  | nil => simp [msm_bits, bitsVal]
  | cons hd rest ih =>
    obtain ⟨ba, bb⟩ := hd
    simp only [msm_bits]
    rw [ih]
    cases ba <;> cases bb <;>
      simp [bitsVal, toG_complete_add, toG_secp256k1_double, smul_add,
        add_smul, mul_smul, two_smul] <;>
      abel

/-- The scalar-multiplication ladder preserves wellformedness. -/
theorem wfP_scalar_mul_bits {G : Type} [AddCommGroup G] [DecidableEq G]
    (hnt : ∀ g : G, g + g = 0 → g = 0) (bits : List Bool)
    {temp acc : WPoint G} (ht : wfP temp) (ha : wfP acc) :
    wfP (scalar_mul_bits bits temp acc) := by
  induction bits generalizing temp acc with
  | nil => exact ha
  | cons b rest ih =>
    refine ih (wfP_secp256k1_double hnt ht) ?_
    cases b with
    | false => exact ha
    | true => exact wfP_complete_add hnt ha ht

/-- The interleaved two-scalar ladder preserves wellformedness. -/
theorem wfP_msm_bits {G : Type} [AddCommGroup G] [DecidableEq G]
    (hnt : ∀ g : G, g + g = 0 → g = 0) (ab : List (Bool × Bool))
    {a b acc : WPoint G} (haf : wfP a) (hbf : wfP b) (hac : wfP acc) :
    wfP (msm_bits ab a b acc) := by
  induction ab generalizing a b acc with
  | nil => exact hac
  | cons hd rest ih =>
    obtain ⟨ba, bb⟩ := hd
    refine ih (wfP_secp256k1_double hnt haf) (wfP_secp256k1_double hnt hbf) ?_
    cases ba <;> cases bb <;>
      simp only [msm_bits, if_pos rfl, if_neg Bool.false_ne_true]
    · exact hac
    · exact wfP_complete_add hnt hac hbf
    · exact wfP_complete_add hnt hac haf
    · exact wfP_complete_add hnt (wfP_complete_add hnt hac haf) hbf

/-- The bit extraction used by be_bytes_to_le_bits agrees with Nat.testBit. -/
theorem testBit_shift_and (x j : ℕ) :
    ((x >>> j) &&& 1 == 1) = Nat.testBit x j := by
  rw [Nat.testBit_to_div_mod, Nat.and_one_is_mod, Nat.shiftRight_eq_div_pow]
  rcases Nat.mod_two_eq_zero_or_one (x / 2 ^ j) with h | h <;> simp [h]

/-- Bit `j` of a byte plus 256 times a tail is bit `j` of the byte for
`j < 8`, and bit `j - 8` of the tail otherwise. -/
theorem testBit_byte_add (x m j : ℕ) (hx : x < 256) :
    Nat.testBit (x + 256 * m) j
      = if j < 8 then Nat.testBit x j else Nat.testBit m (j - 8) := by
  have h256 : (256 : ℕ) = 2 ^ 8 := by norm_num
  rcases Nat.lt_or_ge j 8 with hj | hj
  · rw [if_pos hj, Nat.testBit_to_div_mod, Nat.testBit_to_div_mod]
    have hsplit : (256 : ℕ) * m = 2 ^ j * (2 ^ (8 - j) * m) := by
      rw [← Nat.mul_assoc, ← pow_add, h256]
      congr 2
      omega
    rw [hsplit, Nat.add_mul_div_left _ _ (Nat.two_pow_pos j)]
    have heven : 2 ^ (8 - j) * m = 2 * (2 ^ (8 - j - 1) * m) := by
      have hp : (2 : ℕ) ^ (8 - j) = 2 * 2 ^ (8 - j - 1) := by
        rw [← pow_succ']
        congr 1
        omega
      rw [hp, Nat.mul_assoc]
    rw [heven]
    generalize x / 2 ^ j = a
    rw [decide_eq_decide]
    omega
  · rw [if_neg (show ¬ j < 8 by omega), Nat.testBit_to_div_mod,
      Nat.testBit_to_div_mod]
    have hpow : (2 : ℕ) ^ j = 2 ^ 8 * 2 ^ (j - 8) := by
      rw [← pow_add]
      congr 1
      omega
    rw [hpow, ← Nat.div_div_eq_div_mul]
    have hdiv : (x + 256 * m) / 2 ^ 8 = m := by
      rw [← h256, Nat.add_mul_div_left _ _ (show 0 < 256 by norm_num),
        Nat.div_eq_of_lt hx]
      omega
    rw [hdiv]

/-- Bit decomposition of a 4-byte little-endian word: bit `j` comes from byte
`j / 8` at position `j % 8`. -/
theorem testBit_u32_from_le_bytes (b0 b1 b2 b3 : ℕ) (j : ℕ)
    (h0 : b0 < 256) (h1 : b1 < 256) (h2 : b2 < 256) :
    Nat.testBit (u32_from_le_bytes b0 b1 b2 b3) j
      = if j < 8 then Nat.testBit b0 j
        else if j < 16 then Nat.testBit b1 (j - 8)
        else if j < 24 then Nat.testBit b2 (j - 16)
        else Nat.testBit b3 (j - 24) := by
  have hrw : u32_from_le_bytes b0 b1 b2 b3
      = b0 + 256 * (b1 + 256 * (b2 + 256 * b3)) := by
    unfold u32_from_le_bytes
    ring
  rw [hrw, testBit_byte_add _ _ _ h0]
  rcases Nat.lt_or_ge j 8 with h8 | h8
  · rw [if_pos h8, if_pos h8]
  · rw [if_neg (show ¬ j < 8 by omega), if_neg (show ¬ j < 8 by omega),
      testBit_byte_add _ _ _ h1]
    rcases Nat.lt_or_ge j 16 with h16 | h16
    · rw [if_pos (show j - 8 < 8 by omega), if_pos (show j < 16 by omega)]
    · rw [if_neg (show ¬ j - 8 < 8 by omega),
        if_neg (show ¬ j < 16 by omega), testBit_byte_add _ _ _ h2]
      have e1 : j - 8 - 8 = j - 16 := by omega
      rw [e1]
      rcases Nat.lt_or_ge j 24 with h24 | h24
      · rw [if_pos (show j - 16 < 8 by omega), if_pos (show j < 24 by omega)]
      · rw [if_neg (show ¬ j - 16 < 8 by omega),
          if_neg (show ¬ j < 24 by omega)]
        have e2 : j - 16 - 8 = j - 24 := by omega
        rw [e2]

/-- Claim C1.  The public addition entry points on CenoProjectivePoint (Add,
AddAssign and the mixed projective+affine variants) do NOT delegate to the
complete addition law: they call the raw accelerated add, which fails on an
identity operand (no limb data) and violates the syscall's documented
precondition on equal operands, while the complete law returns the correct
point in both situations. -/
theorem c1_public_add_bypasses_complete_law :
    proj_add (⟨WPoint.infinity⟩ : CenoProjectivePoint (WPoint ℤ))
        ⟨WPoint.affine 1⟩ = none
    ∧ proj_add (⟨WPoint.affine (1 : ℤ)⟩ : CenoProjectivePoint (WPoint ℤ))
        ⟨WPoint.affine 1⟩ = none
    ∧ proj_add_assign (⟨WPoint.infinity⟩ : CenoProjectivePoint (WPoint ℤ))
        ⟨WPoint.affine 1⟩ = none
    ∧ proj_add_affine (⟨WPoint.infinity⟩ : CenoProjectivePoint (WPoint ℤ))
        (WPoint.affine 1) = none
    ∧ proj_add_assign_affine
        (⟨WPoint.infinity⟩ : CenoProjectivePoint (WPoint ℤ))
        (WPoint.affine 1) = none
    ∧ complete_add WPoint.infinity (WPoint.affine (1 : ℤ)) = WPoint.affine 1
    ∧ complete_add (WPoint.affine (1 : ℤ)) (WPoint.affine 1)
        = WPoint.affine 2 := by
  decide

/-- Claim C2 (amended).  Standalone doubling maps identity to identity and
dispatches non-identity points to the accelerated double for
CenoSecp256k1Point::double and CenoProjectivePoint::double; Bn254Point::double
dispatches non-identity points to the accelerated double but does not handle
the identity (see the counterexample). -/
theorem c2_double_dispatch_amended {G : Type} [AddCommGroup G] :
    secp256k1_double (WPoint.infinity : WPoint G) = WPoint.infinity
    ∧ (∀ g : G, secp256k1_double (WPoint.affine g)
        = WPoint.affine (accel_double g))
    ∧ (∀ g : G, bn254_double (WPoint.affine g)
        = some (WPoint.affine (accel_double g)))
    ∧ proj_double (⟨WPoint.infinity⟩ : CenoProjectivePoint (WPoint G))
        = ⟨WPoint.infinity⟩
    ∧ ∀ g : G, proj_double (⟨WPoint.affine g⟩ : CenoProjectivePoint (WPoint G))
        = ⟨WPoint.affine (accel_double g)⟩ :=
  ⟨rfl, fun _ => rfl, fun _ => rfl, rfl, fun _ => rfl⟩

/-- Claim C2, counterexample.  Bn254Point::double does not map the identity to
the identity: it unconditionally takes the limbs, which the identity does not
have, so the call fails instead of returning the identity. -/
theorem c2_bn254_identity_counterexample :
    bn254_double (WPoint.infinity : WPoint ℤ) = none := rfl

/-- Claim C3.  The complete addition law satisfies the identity law on both
sides for every point; the public projective addition operator, however, does
not go through it: adding the identity on the right through the operator
fails instead of returning the left operand (code-bug evidence). -/
theorem c3_complete_add_identity_law :
    (∀ (G : Type) [AddCommGroup G] [DecidableEq G] (p : WPoint G),
        complete_add p WPoint.infinity = p
        ∧ complete_add WPoint.infinity p = p)
    ∧ proj_add (⟨WPoint.affine (1 : ℤ)⟩ : CenoProjectivePoint (WPoint ℤ))
        ⟨WPoint.infinity⟩ = none := by
  constructor
  · intro G _ _ p
    constructor
    · cases p <;> rfl
    · cases p <;> rfl
  · rfl

/-- Claim C4.  The word conversion and the bit conversion of a 32-byte
big-endian buffer agree bit for bit: bit j of word i equals entry 32*i + j of
the bit sequence. -/
theorem c4_words_bits_agree (b : ℕ → ℕ) (hb : ∀ k, k < 32 → b k < 256)
    {i j : ℕ} (hi : i < 8) (hj : j < 32) :
    Nat.testBit (be_bytes_to_le_words b i) j
      = be_bytes_to_le_bits b (32 * i + j) := by
  unfold be_bytes_to_le_words be_bytes_to_le_bits
  rw [testBit_shift_and]
  rw [testBit_u32_from_le_bytes _ _ _ _ _ (hb _ (by omega)) (hb _ (by omega))
    (hb _ (by omega))]
  rcases Nat.lt_or_ge j 8 with h8 | h8
  · rw [if_pos h8]
    have e1 : 31 - (32 * i + j) / 8 = 31 - 4 * i := by omega
    have e2 : (32 * i + j) % 8 = j := by omega
    rw [e1, e2]
  · rcases Nat.lt_or_ge j 16 with h16 | h16
    · rw [if_neg (show ¬ j < 8 by omega), if_pos h16]
      have e1 : 31 - (32 * i + j) / 8 = 31 - (4 * i + 1) := by omega
      have e2 : (32 * i + j) % 8 = j - 8 := by omega
      rw [e1, e2]
    · rcases Nat.lt_or_ge j 24 with h24 | h24
      · rw [if_neg (show ¬ j < 8 by omega), if_neg (show ¬ j < 16 by omega),
          if_pos h24]
        have e1 : 31 - (32 * i + j) / 8 = 31 - (4 * i + 2) := by omega
        have e2 : (32 * i + j) % 8 = j - 16 := by omega
        rw [e1, e2]
      · rw [if_neg (show ¬ j < 8 by omega), if_neg (show ¬ j < 16 by omega),
          if_neg (show ¬ j < 24 by omega)]
        have e1 : 31 - (32 * i + j) / 8 = 31 - (4 * i + 3) := by omega
        have e2 : (32 * i + j) % 8 = j - 24 := by omega
        rw [e1, e2]

/-- Claim C4, witness: the conversion agreement at a concrete buffer, word 1,
bit 9. -/
theorem c4_words_bits_agree_witness :
    (∀ k, k < 32 → (fun _ : ℕ => 7) k < 256) ∧ (1 : ℕ) < 8 ∧ (9 : ℕ) < 32
    ∧ Nat.testBit (be_bytes_to_le_words (fun _ : ℕ => 7) 1) 9
        = be_bytes_to_le_bits (fun _ : ℕ => 7) (32 * 1 + 9) :=
  ⟨fun _ _ => by show (7 : ℕ) < 256; decide, by decide, by decide,
   c4_words_bits_agree (fun _ => 7)
     (fun _ _ => by show (7 : ℕ) < 256; decide) (by decide) (by decide)⟩

/-- Claim C5.  The linear combination (interleaved two-scalar double-and-add)
equals the complete-law sum of the two independent scalar multiplications, for
equal-length little-endian scalar bit sequences, over a curve group with no
2-torsion (prime order) and wellformed inputs (affine operands never encode
the identity). -/
theorem c5_lincomb_eq_complete_add_of_muls {G : Type} [AddCommGroup G]
    [DecidableEq G] (hnt : ∀ g : G, g + g = 0 → g = 0)
    (p q : CenoProjectivePoint (WPoint G))
    (hp : wfP p.inner) (hq : wfP q.inner)
    (abits bbits : List Bool) (hlen : abits.length = bbits.length) :
    lincomb p abits q bbits
      = ⟨complete_add (proj_scalar_mul p abits).inner
          (proj_scalar_mul q bbits).inner⟩ := by
  have hwl : wfP (msm_bits (abits.zip bbits) p.inner q.inner WPoint.infinity) :=
    wfP_msm_bits hnt _ hp hq trivial
  have hwa : wfP (scalar_mul_bits abits p.inner WPoint.infinity) :=
    wfP_scalar_mul_bits hnt _ hp trivial
  have hwb : wfP (scalar_mul_bits bbits q.inner WPoint.infinity) :=
    wfP_scalar_mul_bits hnt _ hq trivial
  simp only [lincomb, proj_scalar_mul]
  congr 1
  refine wfP_toG_inj hwl (wfP_complete_add hnt hwa hwb) ?_
  rw [toG_msm_bits, toG_complete_add, toG_scalar_mul_bits,
    toG_scalar_mul_bits, List.map_fst_zip _ _ (le_of_eq hlen),
    List.map_snd_zip _ _ (le_of_eq hlen.symm)]
  simp only [toG, zero_add]

/-- Claim C5, witness: the equivalence at concrete points 1 and 2 of the
integers with scalar bits 1 and 3. -/
theorem c5_lincomb_witness :
    (∀ g : ℤ, g + g = 0 → g = 0)
    ∧ wfP (WPoint.affine (1 : ℤ)) ∧ wfP (WPoint.affine (2 : ℤ))
    ∧ lincomb (⟨WPoint.affine (1 : ℤ)⟩ : CenoProjectivePoint (WPoint ℤ))
        [true, false] ⟨WPoint.affine 2⟩ [true, true]
      = ⟨complete_add
          (proj_scalar_mul
            (⟨WPoint.affine (1 : ℤ)⟩ : CenoProjectivePoint (WPoint ℤ))
            [true, false]).inner
          (proj_scalar_mul
            (⟨WPoint.affine (2 : ℤ)⟩ : CenoProjectivePoint (WPoint ℤ))
            [true, true]).inner⟩ :=
  ⟨fun g h => by omega, one_ne_zero, two_ne_zero,
   c5_lincomb_eq_complete_add_of_muls (fun g h => by omega)
     ⟨WPoint.affine (1 : ℤ)⟩ ⟨WPoint.affine 2⟩ one_ne_zero two_ne_zero
     [true, false] [true, true] rfl⟩

/-- Claim C6.  Subtraction negates the right operand and then adds: the Sub
implementation is Add of the negation, SubAssign agrees with it, and negation
keeps the identity and negates the Y coordinate (the group negation of the
encoded point) otherwise. -/
theorem c6_sub_negates_then_adds {G : Type} [AddCommGroup G] [DecidableEq G]
    (p q : CenoProjectivePoint (WPoint G)) :
    proj_sub p q = proj_add p (proj_neg q)
    ∧ proj_sub_assign p q = proj_add p (proj_neg q)
    ∧ proj_neg (⟨WPoint.infinity⟩ : CenoProjectivePoint (WPoint G))
        = ⟨WPoint.infinity⟩
    ∧ ∀ g : G, proj_neg
        (⟨WPoint.affine g⟩ : CenoProjectivePoint (WPoint G))
        = ⟨WPoint.affine (-g)⟩ :=
  ⟨rfl, rfl, rfl, fun _ => rfl⟩

/-- Claim C7.  clear_cofactor returns its argument unchanged and
is_torsion_free always reports true. -/
theorem c7_cofactor_trivial {A : Type} :
    (∀ p : CenoProjectivePoint A, clear_cofactor p = p)
    ∧ ∀ p : CenoProjectivePoint A, is_torsion_free p = true :=
  ⟨fun _ => rfl, fun _ => rfl⟩

/-- Claim C8.  Compressed-point decoding of an off-curve X coordinate yields
the empty optional result through the projective from_bytes entry point: the
square-root oracle reports no root, the affine decode is empty, and the
projective layer propagates emptiness (the Lean functions are total, so no
abort is possible). -/
theorem c8_offcurve_decodes_to_none {F : Type} [Field F] [DecidableEq F]
    (sqrtFn : F → Option F) (oddFn : F → Bool)
    (hsqrt : ∀ r : F, (∀ y : F, y * y ≠ r) → sqrtFn r = none)
    (A B x : F) (parity : Bool)
    (hx : ∀ y : F, y * y ≠ x * x * x + A * x + B) :
    proj_from_bytes
        (fun inp : F × Bool => affine_decompress sqrtFn oddFn A B inp.1 inp.2)
        (x, parity) = none := by
  simp only [proj_from_bytes, affine_decompress]
  rw [hsqrt _ hx]
  rfl

/-- Claim C8, witness: over the field with three elements, X = 2 is off curve
for y^2 = x^3 (2 is not a square mod 3), and decoding returns the empty
result. -/
theorem c8_offcurve_witness :
    (∀ r : ZMod 3, (∀ y : ZMod 3, y * y ≠ r) → zmod3_sqrt r = none)
    ∧ (∀ y : ZMod 3, y * y ≠ 2 * 2 * 2 + 0 * 2 + 0)
    ∧ proj_from_bytes
        (fun inp : ZMod 3 × Bool =>
          affine_decompress zmod3_sqrt (fun _ => false) 0 0 inp.1 inp.2)
        (2, false) = none :=
  ⟨by decide, by decide,
   c8_offcurve_decodes_to_none zmod3_sqrt (fun _ => false) (by decide) 0 0 2
     false (by decide)⟩

/-- Claim C9.  from_bytes_unchecked returns exactly the same result as
from_bytes for every input and every affine decoder: there is no unvalidated
decoding path at the projective level. -/
theorem c9_from_bytes_unchecked_eq {R A : Type} (d : R → Option A) (r : R) :
    proj_from_bytes_unchecked d r = proj_from_bytes d r := rfl

/-- Claim C10.  The hard-coded secp256k1 GENERATOR limbs, read as little-endian
32-bit words (limbs 0 to 7 the X coordinate, limbs 8 to 15 the Y coordinate,
least significant word first), encode the standard secp256k1 base point. -/
theorem c10_generator_is_base_point :
    le_words_to_nat (secp256k1_generator_limbs.take 8)
      = 0x79BE667EF9DCBBAC55A06295CE870B07029BFCDB2DCE28D959F2815B16F81798
    ∧ le_words_to_nat (secp256k1_generator_limbs.drop 8)
      = 0x483ADA7726A3C4655DA4FBFC0E1108A8FD17B448A68554199C47D08FFB10D4B8 := by
  constructor <;> rfl

end Ceno
